import Mathlib

/-!
Verification of the event-organizer bot core (event store, participant list
serialization, reminder scheduler) against its specification.  The Python
source stores the participant roster as a comma-joined string; names are
modelled as `List Char`, times as integers (seconds), and the SQLite rows as
a structure `EventRec`.
-/

namespace EventBot

/-- Whitespace characters removed by the source's `str.strip()` calls
(space, tab, newline, carriage return). -/
def wsp (c : Char) : Bool := c == ' ' || c == '\t' || c == '\n' || c == '\r'

/-- Embedding of Python `s.strip()` on character lists: drop whitespace from
both ends. -/
def trimChars (l : List Char) : List Char :=
  ((l.dropWhile wsp).reverse.dropWhile wsp).reverse

/-- Embedding of Python `s.split(",")`: split a character list at every
comma; yields one (possibly empty) piece per comma-separated segment. -/
def splitComma : List Char → List (List Char)
  | [] => [[]]
  | c :: cs =>
    match splitComma cs with
    | [] => [[c]]
    | p :: ps => if c = ',' then [] :: p :: ps else (c :: p) :: ps

/-- Embedding of `names_to_list` (src/main.py lines 95-98):
`[x.strip() for x in s.split(",") if x.strip()]`. -/
def namesToList (s : List Char) : List (List Char) :=
  ((splitComma s).map trimChars).filter (fun x => x ≠ [])

/-- Embedding of `list_to_names` (src/main.py lines 100-101):
`", ".join(lst)`. -/
def listToNames : List (List Char) → List Char
  | [] => []
  | [x] => x
  | x :: y :: xs => x ++ ',' :: ' ' :: listToNames (y :: xs)

/-- A name that survives the comma-join/split storage unchanged: non-empty,
comma-free, and with no leading or trailing whitespace. -/
def CleanName (n : List Char) : Prop := n ≠ [] ∧ ',' ∉ n ∧ trimChars n = n

instance : DecidablePred CleanName := fun n =>
  inferInstanceAs (Decidable (n ≠ [] ∧ ',' ∉ n ∧ trimChars n = n))

/-- Concatenation of the per-name parses: what one storage round trip turns a
list of names into. -/
def bindParse : List (List Char) → List (List Char)
  | [] => []
  | x :: xs => namesToList x ++ bindParse xs

theorem splitComma_ne_nil (s : List Char) : splitComma s ≠ [] := by
  cases s with
  | nil => simp [splitComma]
  | cons c cs =>
    cases h : splitComma cs with
    | nil => simp [splitComma, h]
    | cons p ps => by_cases hc : c = ',' <;> simp [splitComma, h, hc]

theorem splitComma_append (a b : List Char) :
    splitComma (a ++ ',' :: b) = splitComma a ++ splitComma b := by
  induction a with
  | nil =>
    cases h : splitComma b with
    | nil => exact absurd h (splitComma_ne_nil b)
    | cons p ps => simp [splitComma, h]
  | cons c a ih =>
    cases h : splitComma a with
    | nil => exact absurd h (splitComma_ne_nil a)
    | cons p ps =>
      by_cases hc : c = ','
      · simp [splitComma, ih, h, hc]
      · simp [splitComma, ih, h, hc]

theorem splitComma_of_not_mem (a : List Char) (h : ',' ∉ a) : splitComma a = [a] := by
  induction a with
  | nil => simp [splitComma]
  | cons c a ih =>
    have hc : ¬ c = ',' := fun hh => h (by simp [hh])
    have ha : ',' ∉ a := fun hh => h (List.mem_cons_of_mem _ hh)
    simp [splitComma, ih ha, hc]

theorem splitComma_cons_eq (c : Char) (cs : List Char) {p : List Char}
    {ps : List (List Char)} (hs : splitComma cs = p :: ps) :
    splitComma (c :: cs) = if c = ',' then [] :: p :: ps else (c :: p) :: ps := by
  unfold splitComma
  rw [hs]

theorem not_mem_of_mem_splitComma {s piece : List Char}
    (h : piece ∈ splitComma s) : ',' ∉ piece := by
  induction s generalizing piece with
  | nil =>
    simp [splitComma] at h
    subst h; simp
  | cons c cs ih =>
    cases hs : splitComma cs with
    | nil => exact absurd hs (splitComma_ne_nil cs)
    | cons p ps =>
      rw [splitComma_cons_eq c cs hs] at h
      by_cases hc : c = ','
      · rw [if_pos hc] at h
        rcases List.mem_cons.mp h with h | h
        · subst h; simp
        · rcases List.mem_cons.mp h with h | h
          · subst h; exact ih (by rw [hs]; exact List.mem_cons_self _ _)
          · exact ih (by rw [hs]; exact List.mem_cons_of_mem _ h)
      · rw [if_neg hc] at h
        rcases List.mem_cons.mp h with h | h
        · subst h
          intro hmem
          rcases List.mem_cons.mp hmem with h1 | h1
          · exact hc h1.symm
          · exact ih (by rw [hs]; exact List.mem_cons_self _ _) h1
        · exact ih (by rw [hs]; exact List.mem_cons_of_mem _ h)

theorem dropWhile_wsp_idem (l : List Char) :
    (l.dropWhile wsp).dropWhile wsp = l.dropWhile wsp := by
  induction l with
  | nil => rfl
  | cons c l ih =>
    by_cases h : wsp c = true
    · simp only [List.dropWhile_cons, h, if_true]; exact ih
    · have h2 : (c :: l).dropWhile wsp = c :: l := by
        rw [List.dropWhile_cons, if_neg (by simp [h])]
      rw [h2, h2]

theorem head_dropWhile_wsp {l : List Char} {a : Char} {r : List Char}
    (h : l.dropWhile wsp = a :: r) : wsp a = false := by
  induction l generalizing r with
  | nil => simp at h
  | cons c l ih =>
    by_cases hc : wsp c = true
    · rw [List.dropWhile_cons, if_pos hc] at h; exact ih h
    · rw [List.dropWhile_cons, if_neg hc] at h
      cases h
      exact Bool.not_eq_true _ ▸ hc

theorem rtrim_cons {a : Char} (ha : wsp a = false) (l : List Char) :
    ((a :: l).reverse.dropWhile wsp).reverse =
      a :: (l.reverse.dropWhile wsp).reverse := by
  rw [List.reverse_cons, List.dropWhile_append]
  by_cases h : (l.reverse.dropWhile wsp).isEmpty = true
  · rw [if_pos h]
    rw [List.isEmpty_iff] at h
    rw [h]
    simp [List.dropWhile_cons, ha]
  · rw [if_neg h]
    simp

theorem trim_cons_wsp {c : Char} (hc : wsp c = true) (l : List Char) :
    trimChars (c :: l) = trimChars l := by
  unfold trimChars
  rw [List.dropWhile_cons, if_pos hc]

theorem trim_cons_not_wsp {a : Char} (ha : wsp a = false) (l : List Char) :
    trimChars (a :: l) = a :: (l.reverse.dropWhile wsp).reverse := by
  unfold trimChars
  rw [List.dropWhile_cons, if_neg (by simp [ha]), rtrim_cons ha]

theorem trim_eq_of_dropWhile {l : List Char} {a : Char} {r : List Char}
    (h : l.dropWhile wsp = a :: r) :
    trimChars l = a :: (r.reverse.dropWhile wsp).reverse := by
  unfold trimChars
  rw [h]
  exact rtrim_cons (head_dropWhile_wsp h) r

theorem dropWhile_trim (l : List Char) :
    (trimChars l).dropWhile wsp = trimChars l := by
  cases h : l.dropWhile wsp with
  | nil => unfold trimChars; rw [h]; rfl
  | cons a r =>
    have ha := head_dropWhile_wsp h
    rw [trim_eq_of_dropWhile h, List.dropWhile_cons, if_neg (by simp [ha])]

theorem rev_trim_dropWhile (l : List Char) :
    (trimChars l).reverse.dropWhile wsp = (trimChars l).reverse := by
  unfold trimChars
  rw [List.reverse_reverse]
  exact dropWhile_wsp_idem _

theorem trim_trim (l : List Char) : trimChars (trimChars l) = trimChars l := by
  conv_lhs => rw [trimChars]
  rw [dropWhile_trim, rev_trim_dropWhile, List.reverse_reverse]

theorem mem_of_mem_trim {c : Char} {l : List Char} (h : c ∈ trimChars l) : c ∈ l := by
  unfold trimChars at h
  rw [List.mem_reverse] at h
  have h1 : c ∈ (l.dropWhile wsp).reverse := (List.dropWhile_sublist wsp).subset h
  rw [List.mem_reverse] at h1
  exact (List.dropWhile_sublist wsp).subset h1

theorem namesToList_cons_wsp {c : Char} (hc : wsp c = true) (s : List Char) :
    namesToList (c :: s) = namesToList s := by
  cases hs : splitComma s with
  | nil => exact absurd hs (splitComma_ne_nil s)
  | cons p ps =>
    have hcc : ¬ c = ',' := by
      intro h
      rw [h] at hc
      simp [wsp] at hc
    unfold namesToList
    rw [splitComma_cons_eq c s hs, if_neg hcc, hs]
    simp only [List.map_cons, List.filter_cons]
    rw [trim_cons_wsp hc]

theorem namesToList_append_comma (a b : List Char) :
    namesToList (a ++ ',' :: b) = namesToList a ++ namesToList b := by
  unfold namesToList
  rw [splitComma_append, List.map_append, List.filter_append]

theorem namesToList_clean {n : List Char} (h : CleanName n) : namesToList n = [n] := by
  obtain ⟨h1, h2, h3⟩ := h
  unfold namesToList
  rw [splitComma_of_not_mem n h2]
  simp [h3, h1]

theorem roundtrip_eq_bindParse (l : List (List Char)) :
    namesToList (listToNames l) = bindParse l := by
  induction l with
  | nil => rfl
  | cons x xs ih =>
    cases xs with
    | nil => simp [listToNames, bindParse]
    | cons y ys =>
      show namesToList (x ++ ',' :: ' ' :: listToNames (y :: ys)) = _
      rw [namesToList_append_comma, namesToList_cons_wsp (by rfl), ih]
      rfl

theorem mem_namesToList_clean {s x : List Char} (h : x ∈ namesToList s) :
    CleanName x := by
  unfold namesToList at h
  rw [List.mem_filter] at h
  obtain ⟨hm, hne⟩ := h
  rw [List.mem_map] at hm
  obtain ⟨piece, hp, rfl⟩ := hm
  refine ⟨by simpa using hne, ?_, trim_trim piece⟩
  intro hcm
  exact not_mem_of_mem_splitComma hp (mem_of_mem_trim hcm)

theorem bindParse_clean {l : List (List Char)} (h : ∀ n ∈ l, CleanName n) :
    bindParse l = l := by
  induction l with
  | nil => rfl
  | cons x xs ih =>
    show namesToList x ++ bindParse xs = x :: xs
    rw [namesToList_clean (h x (List.mem_cons_self _ _)),
        ih (fun n hn => h n (List.mem_cons_of_mem _ hn))]
    rfl

theorem bindParse_append (a b : List (List Char)) :
    bindParse (a ++ b) = bindParse a ++ bindParse b := by
  induction a with
  | nil => rfl
  | cons x xs ih =>
    show namesToList x ++ bindParse (xs ++ b) = (namesToList x ++ bindParse xs) ++ bindParse b
    rw [ih, List.append_assoc]

theorem roundtrip_clean {l : List (List Char)} (h : ∀ n ∈ l, CleanName n) :
    namesToList (listToNames l) = l := by
  rw [roundtrip_eq_bindParse, bindParse_clean h]

theorem roundtrip_iff (l : List (List Char)) :
    namesToList (listToNames l) = l ↔ ∀ n ∈ l, CleanName n := by
  constructor
  · intro h n hn
    rw [← h] at hn
    exact mem_namesToList_clean hn
  · exact roundtrip_clean

/-- Per-event state as the database stores it: the raw comma-joined
participants string and the nullable manager column. -/
structure EventState where
  participants : List Char
  manager : Option (List Char)
deriving DecidableEq

/-- State created by `create_event` (src/main.py lines 181-192): the proposer
is the initial manager and the only participant, stored through
`list_to_names([proposer])`. -/
def mkCreated (p : List Char) : EventState :=
  ⟨listToNames [p], some p⟩

/-- Result of `leave_event` as visible to the caller. -/
inductive LeaveResult where
  | ok
  | notMember
deriving DecidableEq

/-- Embedding of `join_event` (src/main.py lines 206-220): parse the stored
roster, no-op if the display name is already present, otherwise append the
raw name and re-join. -/
def joinEvent (s : EventState) (n : List Char) : EventState :=
  if n ∈ namesToList s.participants then s
  else { s with participants := listToNames (namesToList s.participants ++ [n]) }

/-- Embedding of `leave_event` (src/main.py lines 223-240): reject a
non-member, otherwise drop every parsed entry equal to the name and clear the
manager when the leaver was the manager. -/
def leaveEvent (s : EventState) (n : List Char) : LeaveResult × EventState :=
  if n ∈ namesToList s.participants then
    (.ok, ⟨listToNames ((namesToList s.participants).filter (fun p => p ≠ n)),
           if s.manager = some n then none else s.manager⟩)
  else (.notMember, s)

/-- The mutating operations quantified over by the invariant claims. The
`randMgr` index models the value drawn by `random.choice` in
`random_manager` (src/main.py line 273): every possible draw is some
`k % parts.length`. -/
inductive Op where
  | join (n : List Char)
  | leave (n : List Char)
  | setMgr (n : List Char)
  | randMgr (k : Nat)

/-- One store mutation: `join_event`, `leave_event`, `set_manager`
(src/main.py lines 248-258) or `random_manager` (lines 262-275), keeping
only the resulting row state. -/
def stepOp (s : EventState) : Op → EventState
  | .join n => joinEvent s n
  | .leave n => (leaveEvent s n).2
  | .setMgr n =>
    if n ∈ namesToList s.participants then { s with manager := some n } else s
  | .randMgr k =>
    if h : namesToList s.participants = [] then s
    else
      { s with manager := some ((namesToList s.participants).get ⟨k % (namesToList s.participants).length, Nat.mod_lt _ (List.length_pos.mpr h)⟩) }

/-- A sequence of mutations applied to an event row. -/
def runOps (s : EventState) (ops : List Op) : EventState :=
  ops.foldl stepOp s

/-- Invariant I2: the manager column is NULL or one of the parsed
participant entries. -/
def MgrInv (s : EventState) : Prop :=
  ∀ m, s.manager = some m → m ∈ namesToList s.participants

theorem parse_joinEvent {s : EventState} {n : List Char}
    (hm : ¬ n ∈ namesToList s.participants) (hcn : CleanName n) :
    namesToList (joinEvent s n).participants = namesToList s.participants ++ [n] := by
  unfold joinEvent
  rw [if_neg hm]
  show namesToList (listToNames (namesToList s.participants ++ [n])) = _
  refine roundtrip_clean ?_
  intro x hx
  rcases List.mem_append.mp hx with h1 | h1
  · exact mem_namesToList_clean h1
  · rw [List.mem_singleton] at h1
    subst h1
    exact hcn

theorem parse_joinEvent_arbitrary {s : EventState} {n : List Char}
    (hm : ¬ n ∈ namesToList s.participants) :
    namesToList (joinEvent s n).participants =
      namesToList s.participants ++ namesToList n := by
  unfold joinEvent
  rw [if_neg hm]
  show namesToList (listToNames (namesToList s.participants ++ [n])) = _
  rw [roundtrip_eq_bindParse, bindParse_append,
      bindParse_clean (fun x hx => mem_namesToList_clean hx)]
  show namesToList s.participants ++ (namesToList n ++ bindParse []) = _
  rw [show bindParse ([] : List (List Char)) = [] from rfl, List.append_nil]

theorem leaveEvent_mem_spec {s : EventState} {n : List Char}
    (hm : n ∈ namesToList s.participants) :
    (leaveEvent s n).1 = .ok ∧
    namesToList (leaveEvent s n).2.participants =
      (namesToList s.participants).filter (fun p => p ≠ n) ∧
    (leaveEvent s n).2.manager = (if s.manager = some n then none else s.manager) := by
  unfold leaveEvent
  rw [if_pos hm]
  refine ⟨rfl, ?_, rfl⟩
  show namesToList (listToNames ((namesToList s.participants).filter (fun p => p ≠ n))) = _
  exact roundtrip_clean (fun x hx => mem_namesToList_clean (List.mem_of_mem_filter hx))

/-- The operations a C3 run may contain: `join_event` with a storage-safe
name, or `leave_event` with any name. -/
def JoinLeaveClean : Op → Prop
  | .join n => CleanName n
  | .leave _ => True
  | .setMgr _ => False
  | .randMgr _ => False

theorem nodup_stepOp {s : EventState} {op : Op} (hok : JoinLeaveClean op)
    (h : (namesToList s.participants).Nodup) :
    (namesToList (stepOp s op).participants).Nodup := by
  cases op with
  | join n =>
    have hcn : CleanName n := hok
    show (namesToList (joinEvent s n).participants).Nodup
    by_cases hm : n ∈ namesToList s.participants
    · unfold joinEvent; rw [if_pos hm]; exact h
    · rw [parse_joinEvent hm hcn]
      refine h.append (List.nodup_singleton n) ?_
      intro a ha hb
      rw [List.mem_singleton] at hb
      subst hb
      exact hm ha
  | leave n =>
    show (namesToList (leaveEvent s n).2.participants).Nodup
    by_cases hm : n ∈ namesToList s.participants
    · rw [(leaveEvent_mem_spec hm).2.1]
      exact h.filter _
    · unfold leaveEvent; rw [if_neg hm]; exact h
  | setMgr n => exact hok.elim
  | randMgr k => exact hok.elim

theorem nodup_runOps {ops : List Op} {s : EventState}
    (hops : ∀ op ∈ ops, JoinLeaveClean op)
    (h : (namesToList s.participants).Nodup) :
    (namesToList (runOps s ops).participants).Nodup := by
  induction ops generalizing s with
  | nil => exact h
  | cons op ops ih =>
    show (namesToList (runOps (stepOp s op) ops).participants).Nodup
    exact ih (fun o ho => hops o (List.mem_cons_of_mem _ ho))
      (nodup_stepOp (hops op (List.mem_cons_self _ _)) h)

theorem parse_mkCreated {p : List Char} (hp : CleanName p) :
    namesToList (mkCreated p).participants = [p] := by
  show namesToList (listToNames [p]) = [p]
  refine roundtrip_clean ?_
  intro n hn
  rw [List.mem_singleton] at hn
  subst hn
  exact hp

theorem mgrInv_stepOp {s : EventState} (op : Op) (h : MgrInv s) :
    MgrInv (stepOp s op) := by
  cases op with
  | join n =>
    show MgrInv (joinEvent s n)
    by_cases hm : n ∈ namesToList s.participants
    · unfold joinEvent; rw [if_pos hm]; exact h
    · intro m hmg
      have hmgr : (joinEvent s n).manager = s.manager := by
        unfold joinEvent; rw [if_neg hm]
      rw [hmgr] at hmg
      rw [parse_joinEvent_arbitrary hm]
      exact List.mem_append_left _ (h m hmg)
  | leave n =>
    show MgrInv (leaveEvent s n).2
    by_cases hm : n ∈ namesToList s.participants
    · intro m hmg
      obtain ⟨-, hparts, hmgr⟩ := leaveEvent_mem_spec hm
      rw [hmgr] at hmg
      by_cases hc : s.manager = some n
      · rw [if_pos hc] at hmg
        exact Option.noConfusion hmg
      · rw [if_neg hc] at hmg
        rw [hparts, List.mem_filter]
        refine ⟨h m hmg, ?_⟩
        exact decide_eq_true (fun he => hc (by rw [← he]; exact hmg))
    · unfold leaveEvent; rw [if_neg hm]; exact h
  | setMgr n =>
    show MgrInv (if n ∈ namesToList s.participants then { s with manager := some n } else s)
    by_cases hm : n ∈ namesToList s.participants
    · rw [if_pos hm]
      intro m hmg
      have hmn : n = m := Option.some.inj hmg
      show m ∈ namesToList s.participants
      rw [← hmn]
      exact hm
    · rw [if_neg hm]; exact h
  | randMgr k =>
    by_cases hm : namesToList s.participants = []
    · show MgrInv (dite _ _ _)
      rw [dif_pos hm]
      exact h
    · show MgrInv (dite _ _ _)
      rw [dif_neg hm]
      intro m hmg
      have hgm := Option.some.inj hmg
      show m ∈ namesToList s.participants
      rw [← hgm]
      exact List.get_mem _ _ _

theorem mgrInv_runOps {ops : List Op} {s : EventState} (h : MgrInv s) :
    MgrInv (runOps s ops) := by
  induction ops generalizing s with
  | nil => exact h
  | cons op ops ih =>
    show MgrInv (runOps (stepOp s op) ops)
    exact ih (mgrInv_stepOp op h)

/-- C3 (amended): starting from a created event whose proposer name is
non-empty, comma-free and has no edge whitespace, any sequence of
`join_event` (with names of that same shape) and `leave_event` (any names)
keeps the parsed participants list free of duplicate entries. -/
theorem c3_join_leave_no_duplicates (p : List Char) (ops : List Op)
    (hp : CleanName p) (hops : ∀ op ∈ ops, JoinLeaveClean op) :
    (namesToList (runOps (mkCreated p) ops).participants).Nodup := by
  refine nodup_runOps hops ?_
  rw [parse_mkCreated hp]
  exact List.nodup_singleton p

/-- C3 counterexample: the claim quantifies over arbitrary display names,
but a single `join_event` with the name " x" (leading space) on an event
created by "x" stores "x,  x", which parses back as two equal entries
["x", "x"] — a duplicate. -/
theorem c3_counterexample_messy_join :
    ¬ (namesToList (runOps (mkCreated ['x']) [Op.join [' ', 'x']]).participants).Nodup := by
  decide

/-- Witness for C3: the amended theorem applied to a concrete clean run. -/
theorem c3_witness :
    (namesToList (runOps (mkCreated ['a']) [Op.join ['b']]).participants).Nodup :=
  c3_join_leave_no_duplicates ['a'] [Op.join ['b']] (by decide)
    (fun op hop => by
      rw [List.mem_singleton] at hop
      subst hop
      show CleanName ['b']
      decide)

/-- C4 (amended): starting from a created event whose proposer name is
non-empty, comma-free and has no edge whitespace, every state reachable by
`join_event`, `leave_event`, `set_manager` and `random_manager` (arbitrary
names and draws) has a manager that is NULL or a parsed participant entry. -/
theorem c4_manager_membership (p : List Char) (ops : List Op) (hp : CleanName p) :
    MgrInv (runOps (mkCreated p) ops) := by
  refine mgrInv_runOps ?_
  intro m hm
  have hpm : some p = some m := hm
  rw [parse_mkCreated hp, ← Option.some.inj hpm]
  exact List.mem_singleton_self p

/-- C4 counterexample: the created state itself (the empty operation
sequence) violates the claim when the proposer display name contains a
comma: the manager column holds "a,b" while the parsed participants are
["a", "b"], so the manager is neither empty nor a participant entry. -/
theorem c4_counterexample_comma_proposer :
    (runOps (mkCreated ['a', ',', 'b']) []).manager = some ['a', ',', 'b'] ∧
    ['a', ',', 'b'] ∉ namesToList (runOps (mkCreated ['a', ',', 'b']) []).participants := by
  decide

/-- Witness for C4: the amended theorem applied to a concrete run with a
random-manager draw. -/
theorem c4_witness : MgrInv (runOps (mkCreated ['a']) [Op.randMgr 3]) :=
  c4_manager_membership ['a'] [Op.randMgr 3] (by decide)

/-- C9: `leave_event` on a member removes exactly the entries equal to that
name, clears the manager exactly when the leaver was the manager, and
rejects a non-member with NotMember demonstrably leaving the row unchanged. -/
theorem c9_leave_spec (s : EventState) (n : List Char) :
    (n ∈ namesToList s.participants →
      (leaveEvent s n).1 = LeaveResult.ok ∧
      namesToList (leaveEvent s n).2.participants =
        (namesToList s.participants).filter (fun p => p ≠ n) ∧
      (leaveEvent s n).2.manager = (if s.manager = some n then none else s.manager)) ∧
    (¬ n ∈ namesToList s.participants → leaveEvent s n = (LeaveResult.notMember, s)) :=
  ⟨fun hm => leaveEvent_mem_spec hm, fun hm => by unfold leaveEvent; rw [if_neg hm]⟩

/-- Concrete event row used by the C9 witness: stored roster "a, b" with
manager "a". -/
def sC9 : EventState := ⟨['a', ',', ' ', 'b'], some ['a']⟩

/-- Witness for C9: the manager leaves, is removed, and the manager column
is cleared. -/
theorem c9_witness :
    (leaveEvent sC9 ['a']).1 = LeaveResult.ok ∧
    namesToList (leaveEvent sC9 ['a']).2.participants =
      (namesToList sC9.participants).filter (fun p => p ≠ ['a']) ∧
    (leaveEvent sC9 ['a']).2.manager =
      (if sC9.manager = some ['a'] then none else sC9.manager) :=
  (c9_leave_spec sC9 ['a']).1 (by decide)

/-- C10 (amended): a participant list survives the join/split storage round
trip exactly when every name is non-empty, comma-free and has no leading or
trailing whitespace; in general one round trip replaces each name by the
trimmed non-empty pieces obtained by splitting it at commas. -/
theorem c10_roundtrip_characterization (l : List (List Char)) :
    (namesToList (listToNames l) = l ↔ ∀ n ∈ l, CleanName n) ∧
    namesToList (listToNames l) = bindParse l :=
  ⟨roundtrip_iff l, roundtrip_eq_bindParse l⟩

/-- C10 counterexample: the claim says a comma-bearing name re-reads as
multiple separate entries, but the name "a," (one comma, one trailing empty
piece) re-reads as the single entry "a". -/
theorem c10_counterexample_comma_name :
    namesToList (listToNames [['a', ',']]) = [['a']] ∧
    ¬ 2 ≤ (namesToList (listToNames [['a', ',']])).length := by
  decide

/-- Witness for C10: a clean singleton list round-trips unchanged. -/
theorem c10_witness : namesToList (listToNames [['a']]) = [['a']] :=
  (c10_roundtrip_characterization [['a']]).1.mpr (by decide)

/-- One row of the `events` table (SCHEMA_SQL, src/main.py lines 46-60).
Times are absolute instants in seconds; nullable columns are `Option`. An
`eventTimeUtc` of `none` covers both a NULL column and the empty string that
line 133 skips. -/
structure EventRec where
  id : Nat
  channelId : Option Int
  title : List Char
  proposer : List Char
  manager : Option (List Char)
  participants : List Char
  note : List Char
  location : List Char
  eventTimeUtc : Option Int
  remindMinutes : Option Int
  reminded : Bool
deriving DecidableEq

/-- Embedding of `row["remind_minutes"] or 30` (src/main.py line 136):
Python's `or` replaces both NULL and 0 by 30, because 0 is falsy. -/
def effRemind (e : EventRec) : Int :=
  match e.remindMinutes with
  | none => 30
  | some m => if m = 0 then 30 else m

/-- Whether the scan at instant `now` finds this row's threshold crossed:
the row is a candidate (`event_time_utc` set, `reminded = 0`) and
`now ≥ event_time − timedelta(minutes = remind_minutes or 30)`
(src/main.py lines 126-137). -/
def fires (now : Int) (e : EventRec) : Bool :=
  match e.eventTimeUtc with
  | none => false
  | some t => !e.reminded && decide (t - 60 * effRemind e ≤ now)

/-- Whether the notification can actually be sent: `bot.get_channel` is
consulted only for a truthy channel id and the result must be messageable
(src/main.py lines 138-139). `m` is the external world's answer to
`is_messageable(bot.get_channel cid)`. -/
def canSend (m : Int → Bool) (e : EventRec) : Bool :=
  match e.channelId with
  | none => false
  | some cid => if cid = 0 then false else m cid

/-- Effect of one scan cycle on a single row: a fired row is marked
`reminded = 1` (line 151) whether or not the send happened; other rows are
untouched. -/
def stepRec (now : Int) (e : EventRec) : EventRec :=
  if fires now e then { e with reminded := true } else e

/-- One cycle of `reminder_loop` (src/main.py lines 123-152): the ids handed
to the Notification Sink (rows that fired and whose channel was
messageable), together with the updated table. Rows are processed
independently, as in the source where each iteration touches only its own
row. -/
def scanStep (m : Int → Bool) (now : Int) (st : List EventRec) :
    List Nat × List EventRec :=
  ((st.filter (fun e => fires now e && canSend m e)).map (fun e => e.id),
   st.map (stepRec now))

/-- A run of consecutive scan cycles, each with its own wall-clock instant
and messageability oracle, with no interleaved store mutations (a fixed
arming). -/
def runScans : List (Int × (Int → Bool)) → List EventRec → List Nat × List EventRec
  | [], st => ([], st)
  | (now, m) :: cs, st =>
    ((scanStep m now st).1 ++ (runScans cs (scanStep m now st).2).1,
     (runScans cs (scanStep m now st).2).2)

theorem stepRec_id (now : Int) (e : EventRec) : (stepRec now e).id = e.id := by
  unfold stepRec
  split <;> rfl

theorem fires_reminded {now : Int} {e : EventRec} (h : fires now e = true) :
    e.reminded = false := by
  unfold fires at h
  cases ht : e.eventTimeUtc with
  | none => rw [ht] at h; exact Bool.noConfusion h
  | some t =>
    rw [ht] at h
    rcases Bool.and_eq_true_iff.mp h with ⟨h1, -⟩
    simpa using h1

theorem fires_false_of_reminded {now : Int} {e : EventRec} (h : e.reminded = true) :
    fires now e = false := by
  cases hf : fires now e
  · rfl
  · rw [fires_reminded hf] at h
    exact Bool.noConfusion h

theorem stepRec_of_reminded {now : Int} {e : EventRec} (h : e.reminded = true) :
    stepRec now e = e := by
  simp [stepRec, fires_false_of_reminded h]

/-- Every row of the table with this id already carries `reminded = 1`. -/
def remTrue (st : List EventRec) (i : Nat) : Prop :=
  ∀ e ∈ st, e.id = i → e.reminded = true

theorem count_scan_zero {st : List EventRec} {i : Nat} {m : Int → Bool} {now : Int}
    (h : remTrue st i) : List.count i (scanStep m now st).1 = 0 := by
  rw [List.count_eq_zero]
  intro hmem
  unfold scanStep at hmem
  rw [List.mem_map] at hmem
  obtain ⟨e, he, hid⟩ := hmem
  rw [List.mem_filter] at he
  obtain ⟨hst, hq⟩ := he
  rcases Bool.and_eq_true_iff.mp hq with ⟨hf, -⟩
  have hrem := h e hst hid
  rw [fires_reminded hf] at hrem
  exact Bool.noConfusion hrem

theorem remTrue_scan {st : List EventRec} {i : Nat} {m : Int → Bool} {now : Int}
    (h : remTrue st i) : remTrue (scanStep m now st).2 i := by
  intro e' he' hid
  unfold scanStep at he'
  rw [List.mem_map] at he'
  obtain ⟨f, hf, rfl⟩ := he'
  rw [stepRec_id] at hid
  rw [stepRec_of_reminded (h f hf hid)]
  exact h f hf hid

theorem run_count_zero {st : List EventRec} {i : Nat} (h : remTrue st i)
    (cs : List (Int × (Int → Bool))) :
    List.count i (runScans cs st).1 = 0 := by
  induction cs generalizing st with
  | nil => rfl
  | cons c cs ih =>
    obtain ⟨now, m⟩ := c
    show List.count i ((scanStep m now st).1 ++ (runScans cs (scanStep m now st).2).1) = 0
    rw [List.count_append, count_scan_zero h, ih (remTrue_scan h)]

theorem scan_ids (m : Int → Bool) (now : Int) (st : List EventRec) :
    (scanStep m now st).2.map (fun e => e.id) = st.map (fun e => e.id) := by
  show (st.map (stepRec now)).map (fun e => e.id) = _
  induction st with
  | nil => rfl
  | cons e st ih => simp only [List.map_cons, ih, stepRec_id]

theorem count_scan_le_one {st : List EventRec} (i : Nat) (m : Int → Bool) (now : Int)
    (h : (st.map (fun e => e.id)).Nodup) :
    List.count i (scanStep m now st).1 ≤ 1 := by
  have hsub : List.Sublist
      ((st.filter (fun e => fires now e && canSend m e)).map (fun e => e.id))
      (st.map (fun e => e.id)) :=
    (List.filter_sublist _).map _
  exact le_trans (hsub.count_le i) (List.nodup_iff_count_le_one.mp h i)

theorem remTrue_of_fired {st : List EventRec} {i : Nat} {m : Int → Bool} {now : Int}
    (hn : (st.map (fun e => e.id)).Nodup)
    (hmem : i ∈ (scanStep m now st).1) :
    remTrue (scanStep m now st).2 i := by
  unfold scanStep at hmem
  rw [List.mem_map] at hmem
  obtain ⟨e0, he0, hid0⟩ := hmem
  rw [List.mem_filter] at he0
  obtain ⟨hst0, hq0⟩ := he0
  rcases Bool.and_eq_true_iff.mp hq0 with ⟨hf0, -⟩
  intro e' he' hid'
  unfold scanStep at he'
  rw [List.mem_map] at he'
  obtain ⟨f, hf, rfl⟩ := he'
  rw [stepRec_id] at hid'
  have hfe : f = e0 := List.inj_on_of_nodup_map hn hf hst0 (by rw [hid', hid0])
  rw [hfe]
  show (stepRec now e0).reminded = true
  unfold stepRec
  rw [if_pos hf0]

/-- C6: for a fixed arming (no store mutations between cycles), any run of
scan cycles over a table with unique row ids hands a given event id to the
Notification Sink at most once. -/
theorem c6_at_most_once (st : List EventRec) (i : Nat)
    (cs : List (Int × (Int → Bool)))
    (h : (st.map (fun e => e.id)).Nodup) :
    List.count i (runScans cs st).1 ≤ 1 := by
  induction cs generalizing st with
  | nil => exact Nat.zero_le 1
  | cons c cs ih =>
    obtain ⟨now, m⟩ := c
    show List.count i ((scanStep m now st).1 ++ (runScans cs (scanStep m now st).2).1) ≤ 1
    rw [List.count_append]
    have hn2 : ((scanStep m now st).2.map (fun e => e.id)).Nodup := by
      rw [scan_ids]
      exact h
    rcases Nat.eq_zero_or_pos (List.count i (scanStep m now st).1) with h0 | hpos
    · rw [h0]
      simpa using ih _ hn2
    · have hmem : i ∈ (scanStep m now st).1 := List.count_pos_iff.mp hpos
      rw [run_count_zero (remTrue_of_fired h hmem) cs]
      simpa using count_scan_le_one i m now h

/-- Row used by the C6 witness. -/
def eC6 : EventRec :=
  { id := 1, channelId := some 7, title := ['t'], proposer := ['p'],
    manager := some ['p'], participants := ['p'], note := [], location := [],
    eventTimeUtc := some 3600, remindMinutes := some 30, reminded := false }

/-- Witness for C6: two consecutive cycles both past the threshold still
deliver at most once. -/
theorem c6_witness :
    List.count 1 (runScans [(3000, fun _ => true), (3300, fun _ => true)] [eC6]).1 ≤ 1 :=
  c6_at_most_once [eC6] 1 [(3000, fun _ => true), (3300, fun _ => true)] (by decide)

theorem find?_map_of_id (f : EventRec → EventRec) (hf : ∀ e, (f e).id = e.id)
    (i : Nat) (st : List EventRec) :
    (st.map f).find? (fun x => x.id == i) = (st.find? (fun x => x.id == i)).map f := by
  induction st with
  | nil => rfl
  | cons e st ih =>
    rw [List.map_cons]
    cases hbe : e.id == i with
    | true =>
      have h2 : ((f e).id == i) = true := by rw [hf e]; exact hbe
      simp only [List.find?_cons, h2, hbe, Option.map_some']
    | false =>
      have h2 : ((f e).id == i) = false := by rw [hf e]; exact hbe
      simp only [List.find?_cons, h2, hbe]
      exact ih

/-- C7: when a cycle finds a row past its threshold, the row is marked
`reminded = 1` whatever the messageability oracle answers (send succeeded or
skipped/failed), and no later run of cycles hands that id to the sink
again. -/
theorem c7_marked_regardless (st : List EventRec) (i : Nat) (e : EventRec)
    (t now : Int) (m : Int → Bool)
    (hn : (st.map (fun x => x.id)).Nodup)
    (he : st.find? (fun x => x.id == i) = some e)
    (ht : e.eventTimeUtc = some t)
    (hr : e.reminded = false)
    (hth : t - 60 * effRemind e ≤ now) :
    (scanStep m now st).2.find? (fun x => x.id == i) = some { e with reminded := true } ∧
    ∀ cs, List.count i (runScans cs (scanStep m now st).2).1 = 0 := by
  have hfire : fires now e = true := by
    unfold fires
    rw [ht, hr]
    simp [hth]
  constructor
  · show (st.map (stepRec now)).find? (fun x => x.id == i) = _
    rw [find?_map_of_id (stepRec now) (stepRec_id now) i st, he]
    show some (stepRec now e) = _
    unfold stepRec
    rw [if_pos hfire]
  · intro cs
    refine run_count_zero ?_ cs
    intro e' he' hid
    unfold scanStep at he'
    rw [List.mem_map] at he'
    obtain ⟨f, hf, rfl⟩ := he'
    rw [stepRec_id] at hid
    have heid : e.id = i := by
      have hb := List.find?_some he
      simpa using hb
    have hfe : f = e :=
      List.inj_on_of_nodup_map hn hf (List.mem_of_find?_eq_some he) (by rw [hid, heid])
    rw [hfe]
    show (stepRec now e).reminded = true
    unfold stepRec
    rw [if_pos hfire]

/-- Row used by the C7 witness: its channel id 0 is falsy, so the source
never even resolves a channel and the send is skipped. -/
def eC7 : EventRec :=
  { id := 1, channelId := some 0, title := ['t'], proposer := ['p'],
    manager := some ['p'], participants := ['p'], note := [], location := [],
    eventTimeUtc := some 100, remindMinutes := some 30, reminded := false }

/-- Witness for C7: an unreachable destination still gets marked notified
and is not retried. -/
theorem c7_witness :
    (scanStep (fun _ => false) (-1700) [eC7]).2.find? (fun x => x.id == 1) =
      some { eC7 with reminded := true } ∧
    List.count 1 (runScans [((-1600 : Int), fun _ => true)]
      (scanStep (fun _ => false) (-1700) [eC7]).2).1 = 0 := by
  have h := c7_marked_regardless [eC7] 1 eC7 100 (-1700) (fun _ => false)
    (by decide) (by decide) (by decide) (by decide) (by decide)
  exact ⟨h.1, h.2 [((-1600 : Int), fun _ => true)]⟩

/-- Row used by the C1 failing input: reminder offset explicitly set to 0
(allowed by set_reminder's 0-1440 range check), event at t = 36000 s, not
yet notified, messageable channel. -/
def eC1 : EventRec :=
  { id := 1, channelId := some 5, title := ['t'], proposer := ['p'],
    manager := some ['p'], participants := ['p'], note := [], location := [],
    eventTimeUtc := some 36000, remindMinutes := some 0, reminded := false }

/-- C1 (code bug at m = 0): the claimed threshold for
remind_offset_minutes = 0 is remind_at = event_time − 0 = event_time, but
`row["remind_minutes"] or 30` (src/main.py line 136) treats 0 as falsy, so
the effective offset becomes 30 minutes and the sink is handed the event at
scan moment 34200 s = event_time − 30 min, strictly earlier than the
claimed remind_at of 36000 s. -/
theorem c1_zero_offset_fires_early :
    effRemind eC1 = 30 ∧
    (scanStep (fun _ => true) 34200 [eC1]).1 = [1] ∧
    (34200 : Int) < 36000 - 60 * 0 := by
  decide

/-- Result of `set_reminder` as visible to the caller. -/
inductive SetReminderResult where
  | ok
  | notFound
  | outOfRange
deriving DecidableEq

/-- Embedding of `set_reminder` (src/main.py lines 288-297): range check
first (`minutes < 0 or minutes > 24 * 60`), then row existence, then
`UPDATE events SET remind_minutes = ?, reminded = 0`. -/
def setReminder (st : List EventRec) (i : Nat) (mv : Int) :
    SetReminderResult × List EventRec :=
  if mv < 0 ∨ 24 * 60 < mv then (.outOfRange, st)
  else
    match st.find? (fun x => x.id == i) with
    | none => (.notFound, st)
    | some _ =>
      (.ok, st.map (fun e =>
        if e.id == i then { e with remindMinutes := some mv, reminded := false } else e))

/-- C5: on an existing event, any minutes value in [0, 1440] succeeds and
leaves the row re-armed (`reminded = 0`) with the new offset, whatever the
flag's prior value; any minutes value outside [0, 1440] is rejected with the
whole store unchanged. -/
theorem c5_set_reminder (st : List EventRec) (i : Nat) (mv : Int) (e : EventRec)
    (he : st.find? (fun x => x.id == i) = some e) :
    (0 ≤ mv → mv ≤ 1440 →
      (setReminder st i mv).1 = SetReminderResult.ok ∧
      (setReminder st i mv).2.find? (fun x => x.id == i) =
        some { e with remindMinutes := some mv, reminded := false }) ∧
    ((mv < 0 ∨ 1440 < mv) → setReminder st i mv = (SetReminderResult.outOfRange, st)) := by
  constructor
  · intro h0 h1
    have hcond : ¬ (mv < 0 ∨ 24 * 60 < mv) := by
      rintro (hh | hh) <;> omega
    unfold setReminder
    rw [if_neg hcond, he]
    refine ⟨rfl, ?_⟩
    have hupd : ∀ x : EventRec,
        (if x.id == i then { x with remindMinutes := some mv, reminded := false } else x).id
          = x.id := by
      intro x
      by_cases hx : (x.id == i) = true
      · simp [hx]
      · simp [hx]
    rw [find?_map_of_id _ hupd i st, he]
    have hei : (e.id == i) = true := by simpa using List.find?_some he
    show some (if e.id == i then { e with remindMinutes := some mv, reminded := false } else e)
      = _
    rw [if_pos hei]
  · intro hout
    have hcond : mv < 0 ∨ 24 * 60 < mv := by
      rcases hout with hh | hh
      · exact Or.inl hh
      · right; omega
    unfold setReminder
    rw [if_pos hcond]

/-- Row used by the C5 witness, already notified so that the reset is
visible. -/
def eC5 : EventRec :=
  { id := 1, channelId := some 7, title := ['t'], proposer := ['p'],
    manager := some ['p'], participants := ['p'], note := [], location := [],
    eventTimeUtc := some 9000, remindMinutes := some 30, reminded := true }

/-- Witness for C5: re-arming a notified event with 15 minutes. -/
theorem c5_witness :
    (setReminder [eC5] 1 15).1 = SetReminderResult.ok ∧
    (setReminder [eC5] 1 15).2.find? (fun x => x.id == 1) =
      some { eC5 with remindMinutes := some 15, reminded := false } :=
  (c5_set_reminder [eC5] 1 15 eC5 (by decide)).1 (by decide) (by decide)

/-- The whole store: the AUTOINCREMENT sequence of the `events` table and
its rows. -/
structure Store where
  seq : Nat
  events : List EventRec
deriving DecidableEq

/-- Embedding of the INSERT in `create_event` (src/main.py lines 185-194)
together with the id assignment of SCHEMA_SQL's
`INTEGER PRIMARY KEY AUTOINCREMENT` (lines 46-60): SQLite keeps a per-table
sequence that never decreases and is untouched by DELETE, so the new row id
is the successor of the stored sequence and `lastrowid` returns it. Note
that no field is validated here — in particular the title is inserted
exactly as given. -/
def createEvent (st : Store) (channelId : Int)
    (title proposer location note : List Char) (eventTime : Int) : Nat × Store :=
  (st.seq + 1,
   ⟨st.seq + 1,
    { id := st.seq + 1, channelId := some channelId, title := title,
      proposer := proposer, manager := some proposer,
      participants := listToNames [proposer], note := note, location := location,
      eventTimeUtc := some eventTime, remindMinutes := some 30,
      reminded := false } :: st.events⟩)

/-- Store used by the C2 counterexample. -/
def stC2 : Store := ⟨0, []⟩

/-- C2 counterexample: the claim says a create with an empty title fails
before mutation with no record inserted, but `create_event` never inspects
the title: on an empty store it inserts one record whose title is empty,
and the store is changed. -/
theorem c2_counterexample_empty_title_inserted :
    (createEvent stC2 5 [] ['p'] [] [] 100).2 ≠ stC2 ∧
    (createEvent stC2 5 [] ['p'] [] [] 100).2.events.map (fun e => e.title) = [[]] := by
  decide

/-- C2 (amended): `create_event` performs no title validation: with an
empty title (and arbitrary other fields) it inserts exactly one new record
— empty title, manager = proposer, roster = serialized proposer, offset 30,
notified false — and returns the successor of the store sequence as id. -/
theorem c2_create_accepts_empty_title (st : Store) (cid : Int)
    (proposer location note : List Char) (t : Int) :
    (createEvent st cid [] proposer location note t).1 = st.seq + 1 ∧
    (createEvent st cid [] proposer location note t).2.events =
      { id := st.seq + 1, channelId := some cid, title := [],
        proposer := proposer, manager := some proposer,
        participants := listToNames [proposer], note := note,
        location := location, eventTimeUtc := some t,
        remindMinutes := some 30, reminded := false } :: st.events ∧
    (createEvent st cid [] proposer location note t).2.events.length =
      st.events.length + 1 := by
  refine ⟨rfl, rfl, ?_⟩
  show (_ :: st.events).length = st.events.length + 1
  rw [List.length_cons]

/-- Store-level operations for the id-uniqueness claim. -/
inductive StoreOp where
  | create (channelId : Int) (title proposer location note : List Char) (eventTime : Int)
  | delete (i : Nat)

/-- Apply one operation: `create_event`'s INSERT, or `delete_event`'s
`DELETE FROM events WHERE id = ?` (src/main.py line 338), which removes rows
but leaves the AUTOINCREMENT sequence untouched. -/
def applyOp (st : Store) : StoreOp → Store
  | .create cid t p l n tm => (createEvent st cid t p l n tm).2
  | .delete i => ⟨st.seq, st.events.filter (fun e => e.id ≠ i)⟩

/-- The ids returned by the create operations of a run, in creation order. -/
def createdIds (st : Store) : List StoreOp → List Nat
  | [] => []
  | StoreOp.create cid t p l n tm :: ops =>
    (createEvent st cid t p l n tm).1 ::
      createdIds (createEvent st cid t p l n tm).2 ops
  | StoreOp.delete i :: ops => createdIds (applyOp st (StoreOp.delete i)) ops

theorem createdIds_gt (ops : List StoreOp) :
    ∀ (st : Store) (x : Nat), x ∈ createdIds st ops → st.seq < x := by
  induction ops with
  | nil =>
    intro st x h
    cases h
  | cons op ops ih =>
    intro st x h
    cases op with
    | create cid t p l n tm =>
      rcases List.mem_cons.mp h with h1 | h1
      · rw [h1]
        exact Nat.lt_succ_self _
      · exact lt_trans (Nat.lt_succ_self _) (ih (createEvent st cid t p l n tm).2 x h1)
    | delete i => exact ih (applyOp st (StoreOp.delete i)) x h

/-- C8: over any interleaving of creates and deletes, the ids returned by
the creates are strictly increasing in creation order — hence pairwise
distinct — and an id freed by a delete is never handed out again, since
every later id exceeds it. -/
theorem c8_ids_strictly_increasing (st : Store) (ops : List StoreOp) :
    List.Pairwise (· < ·) (createdIds st ops) := by
  induction ops generalizing st with
  | nil => exact List.Pairwise.nil
  | cons op ops ih =>
    cases op with
    | create cid t p l n tm =>
      refine List.pairwise_cons.mpr ⟨?_, ih _⟩
      intro x hx
      exact createdIds_gt ops (createEvent st cid t p l n tm).2 x hx
    | delete i => exact ih _
